import Mathlib

/-
Formal model of the perforation-core velocity-model and static-correction
code (core/containers.py and core/corrections.py).

Numeric values (Python floats) are modelled as exact rationals.  Fallible
operations (Python raising ValueError / ZeroDivisionError / IndexError, or
falling off the end of a function and returning None) are modelled with
Except Err.  Python's stable in-place sort by descending key is modelled by
a stable insertion sort on the same key.
-/

namespace PerfCore

/-- Structural decidable equality for Except values, used to evaluate the
concrete examples. -/
instance exceptDecEq {e a : Type} [DecidableEq e] [DecidableEq a] :
    DecidableEq (Except e a) := fun x y =>
  match x, y with
  | .error u, .error v =>
    if h : u = v then .isTrue (by rw [h])
    else .isFalse (fun hc => h (Except.error.inj hc))
  | .error _, .ok _ => .isFalse (fun hc => Except.noConfusion hc)
  | .ok _, .error _ => .isFalse (fun hc => Except.noConfusion hc)
  | .ok u, .ok v =>
    if h : u = v then .isTrue (by rw [h])
    else .isFalse (fun hc => h (Except.ok.inj hc))

/-- Error kinds of the core: ValueError sites from the source, keyed by the
spec's nomenclature, plus ZeroDivisionError and the implicit None return of
get_velocity_by_altitude when no layer matches. -/
inductive Err where
  | invalidRange
  | emptyModel
  | emptyObservationSystem
  | outOfRange
  | zeroDivision
  | noneReturn
  deriving DecidableEq

/-- Container with coordinate (x, y, absolute altitude). -/
structure Coordinate where
  x : ℚ
  y : ℚ
  altitude : ℚ
  deriving DecidableEq

/-- Container with station info: station number and coordinate. -/
structure Station where
  number : Int
  coordinate : Coordinate
  deriving DecidableEq

/-- Container for saving observation stations. -/
structure ObservationSystem where
  stations : List Station
  deriving DecidableEq

/-- Container for the Interval abstraction: a pair of bounds.  The checked
constructor is Interval.make below. -/
structure Interval where
  min_val : ℚ
  max_val : ℚ
  deriving DecidableEq

/-- Checked constructor modelling Interval.__init__: fails when
min_val > max_val. -/
def Interval.make (min_val max_val : ℚ) : Except Err Interval :=
  if max_val < min_val then .error .invalidRange
  else .ok ⟨min_val, max_val⟩

/-- Interval size: max_val - min_val. -/
def Interval.length (i : Interval) : ℚ :=
  i.max_val - i.min_val

/-- Container with a layer: altitude interval and propagation velocity. -/
structure Layer where
  altitude_interval : Interval
  vp : ℚ
  deriving DecidableEq

/-- Layer thickness: the length of its altitude interval. -/
def Layer.thickness (l : Layer) : ℚ :=
  l.altitude_interval.length

/-- Bottom altitude of a layer (first component of tuple_view). -/
def Layer.bot (l : Layer) : ℚ :=
  l.altitude_interval.min_val

/-- Top altitude of a layer (second component of tuple_view). -/
def Layer.top (l : Layer) : ℚ :=
  l.altitude_interval.max_val

/-- Stable insertion of a layer into a list kept in descending order of
altitude_interval.max_val: the new layer goes before the first element whose
key is at most its own, so earlier input elements stay first on ties. -/
def insertLayer (l : Layer) : List Layer → List Layer
  | [] => [l]
  | x :: xs =>
    if x.altitude_interval.max_val ≤ l.altitude_interval.max_val then
      l :: x :: xs
    else
      x :: insertLayer l xs

/-- Stable sort by descending altitude_interval.max_val, modelling
layers.sort(key=lambda x: x.altitude_interval.max_val, reverse=True). -/
def sortLayers : List Layer → List Layer
  | [] => []
  | x :: xs => insertLayer x (sortLayers xs)

/-- Class with velocity-model description: the sorted layer list. -/
structure VelocityModel where
  layers : List Layer
  deriving DecidableEq

/-- Checked constructor modelling VelocityModel.__init__: fails on an empty
layer list, otherwise stores the layers sorted by descending max_val. -/
def VelocityModel.make (layers : List Layer) : Except Err VelocityModel :=
  if layers.isEmpty then .error .emptyModel
  else .ok ⟨sortLayers layers⟩

/-- Minimal model altitude: layers[-1].altitude_interval.min_val.  On an
empty layer list Python would raise IndexError; that state is unreachable
through VelocityModel.make, and the default 0 is never used under the
non-emptiness invariant. -/
def VelocityModel.min_altitude (m : VelocityModel) : ℚ :=
  match m.layers.getLast? with
  | some l => l.altitude_interval.min_val
  | none => 0

/-- Maximal model altitude: layers[0].altitude_interval.max_val, with the
same unreachable-empty-list convention as min_altitude. -/
def VelocityModel.max_altitude (m : VelocityModel) : ℚ :=
  match m.layers.head? with
  | some l => l.altitude_interval.max_val
  | none => 0

/-- Scan of the sorted layers in get_velocity_by_altitude: return the vp of
the first layer with bottom_altitude < altitude <= top_altitude.  Python
falls off the loop and implicitly returns None when no layer matches. -/
def findLayer : List Layer → ℚ → Except Err ℚ
  | [], _ => .error .noneReturn
  | layer :: rest, altitude =>
    if layer.altitude_interval.min_val < altitude ∧
        altitude ≤ layer.altitude_interval.max_val then
      .ok layer.vp
    else
      findLayer rest altitude

/-- Model velocity value by altitude (VelocityModel.get_velocity_by_altitude):
range checks, the inclusive global bottom special case returning
layers[-1].vp, then the top-down layer scan. -/
def VelocityModel.get_velocity_by_altitude (m : VelocityModel) (altitude : ℚ) :
    Except Err ℚ :=
  if altitude < m.min_altitude then .error .outOfRange
  else if altitude = m.min_altitude then
    match m.layers.getLast? with
    | some l => .ok l.vp
    | none => .error .emptyModel
  else if m.max_altitude < altitude then .error .outOfRange
  else findLayer m.layers altitude

/-- Traversed thickness chosen by the three cases of the loop body of
get_interval_velocity: query top strictly inside the layer, query bottom
strictly inside the layer, or the layer fully inside the query span. -/
def loopThickness (ai : Interval) (layer : Layer) : ℚ :=
  if layer.altitude_interval.min_val ≤ ai.max_val ∧
      ai.max_val < layer.altitude_interval.max_val then
    ai.max_val - layer.altitude_interval.min_val
  else if layer.altitude_interval.min_val < ai.min_val ∧
      ai.min_val ≤ layer.altitude_interval.max_val then
    layer.altitude_interval.max_val - ai.min_val
  else
    layer.thickness

/-- Accumulation loop of get_interval_velocity over the sorted layers,
carrying total_thickness and total_time.  A layer entirely above the query
is skipped (continue); once a layer's top is below the query's bottom the
loop stops (break); otherwise loopThickness and loopThickness / vp are
accumulated (ZeroDivisionError when vp = 0). -/
def intervalLoop (ai : Interval) :
    List Layer → ℚ → ℚ → Except Err (ℚ × ℚ)
  | [], total_thickness, total_time => .ok (total_thickness, total_time)
  | layer :: rest, total_thickness, total_time =>
    if ai.max_val < layer.altitude_interval.min_val then
      intervalLoop ai rest total_thickness total_time
    else if layer.altitude_interval.max_val < ai.min_val then
      .ok (total_thickness, total_time)
    else
      if layer.vp = 0 then .error .zeroDivision
      else
        intervalLoop ai rest (total_thickness + loopThickness ai layer)
          (total_time + loopThickness ai layer / layer.vp)

/-- Velocity in an altitude interval (VelocityModel.get_interval_velocity):
range checks, the zero-length delegation to get_velocity_by_altitude, then
the accumulation loop and the final total_thickness / total_time division
(ZeroDivisionError when total_time = 0). -/
def VelocityModel.get_interval_velocity (m : VelocityModel)
    (altitude_interval : Interval) : Except Err ℚ :=
  if altitude_interval.min_val < m.min_altitude then .error .outOfRange
  else if m.max_altitude < altitude_interval.max_val then .error .outOfRange
  else if altitude_interval.length = 0 then
    m.get_velocity_by_altitude altitude_interval.max_val
  else
    match intervalLoop altitude_interval m.layers 0 0 with
    | .error e => .error e
    | .ok (total_thickness, total_time) =>
      if total_time = 0 then .error .zeroDivision
      else .ok (total_thickness / total_time)

/-- Minimal stations altitude (ObservationSystem.base_altitude): Python's
min over a generator, raising on an empty station list. -/
def ObservationSystem.base_altitude (os : ObservationSystem) : Except Err ℚ :=
  match os.stations with
  | [] => .error .emptyObservationSystem
  | s :: rest =>
    .ok (rest.foldl (fun acc x => min acc x.coordinate.altitude)
      s.coordinate.altitude)

/-- Counted stations (ObservationSystem.stations_count). -/
def ObservationSystem.stations_count (os : ObservationSystem) : Nat :=
  os.stations.length

/-- Container with a static correction: station number and value. -/
structure Correction where
  station_number : Int
  value : ℚ
  deriving DecidableEq

/-- Per-station body of StaticCorrection.__get_corrections: build the
altitude interval from the base altitude to the station altitude, query the
interval velocity, and divide the interval length by it (ZeroDivisionError
when the velocity is 0); pair the result with the station number as the
corrections property does. -/
def correctionFor (m : VelocityModel) (base : ℚ) (s : Station) :
    Except Err Correction :=
  match Interval.make base s.coordinate.altitude with
  | .error e => .error e
  | .ok ai =>
    match m.get_interval_velocity ai with
    | .error e => .error e
    | .ok v =>
      if v = 0 then .error .zeroDivision
      else .ok ⟨s.number, ai.length / v⟩

/-- Left-to-right accumulation of correctionFor over the stations, stopping
at the first failure, as the construction-time loop of StaticCorrection
does. -/
def mapCorrections (m : VelocityModel) (base : ℚ) :
    List Station → Except Err (List Correction)
  | [] => .ok []
  | s :: rest =>
    match correctionFor m base s with
    | .error e => .error e
    | .ok c =>
      match mapCorrections m base rest with
      | .error e => .error e
      | .ok cs => .ok (c :: cs)

/-- StaticCorrection.corrections as a function of its two inputs: one
Correction per station in input station order, each built from the interval
between the (station-wise constant) base altitude and the station
altitude. -/
def staticCorrections (os : ObservationSystem) (m : VelocityModel) :
    Except Err (List Correction) :=
  match os.base_altitude with
  | .error e => .error e
  | .ok base => mapCorrections m base os.stations

/-- Usage precondition on a single layer: an ordered altitude interval and a
strictly positive velocity (spec section 3). -/
def Layer.wf (l : Layer) : Prop :=
  l.bot ≤ l.top ∧ 0 < l.vp

instance (l : Layer) : Decidable l.wf :=
  inferInstanceAs (Decidable (l.bot ≤ l.top ∧ 0 < l.vp))

/-- Contiguity of a descending layer stack: each layer's bottom is the next
deeper layer's top. -/
def contiguousLayers (ls : List Layer) : Prop :=
  List.Chain' (fun a b => a.bot = b.top) ls

instance contiguousDec : (ls : List Layer) → Decidable (contiguousLayers ls)
  | [] => .isTrue trivial
  | [_] => .isTrue (List.chain'_singleton _)
  | a :: b :: rest =>
    if h : a.bot = b.top then
      match contiguousDec (b :: rest) with
      | .isTrue hc => .isTrue (List.chain'_cons.mpr ⟨h, hc⟩)
      | .isFalse hc => .isFalse (fun hh => hc (List.chain'_cons.mp hh).2)
    else .isFalse (fun hh => h (List.chain'_cons.mp hh).1)

/-- Usage precondition on a model: non-empty, every layer well-formed, and
the sorted stack contiguous (hence non-overlapping and descending). -/
def VelocityModel.wellFormed (m : VelocityModel) : Prop :=
  m.layers ≠ [] ∧ (∀ l ∈ m.layers, l.wf) ∧ contiguousLayers m.layers

instance (m : VelocityModel) : Decidable m.wellFormed :=
  inferInstanceAs (Decidable (m.layers ≠ [] ∧ (∀ l ∈ m.layers, l.wf) ∧
    contiguousLayers m.layers))

/-- Two layers do not overlap: one lies entirely at or below the other. -/
def layersDisjoint (a b : Layer) : Prop :=
  a.top ≤ b.bot ∨ b.top ≤ a.bot

instance (a b : Layer) : Decidable (layersDisjoint a b) :=
  inferInstanceAs (Decidable (a.top ≤ b.bot ∨ b.top ≤ a.bot))

/-- Three-layer example from the spec's test catalogue, in input order. -/
def layers3 : List Layer :=
  [⟨⟨-90, -80⟩, 3⟩, ⟨⟨-80, -70⟩, 2⟩, ⟨⟨-70, -60⟩, 1⟩]

/-- The model built from layers3, with layers sorted by descending top. -/
def model3 : VelocityModel :=
  ⟨[⟨⟨-70, -60⟩, 1⟩, ⟨⟨-80, -70⟩, 2⟩, ⟨⟨-90, -80⟩, 3⟩]⟩

/-- Overlapping-layer input refuting the unconditional min-altitude claim. -/
def layersOverlap : List Layer :=
  [⟨⟨-10, 5⟩, 1⟩, ⟨⟨0, 1⟩, 1⟩]

/-- The model built from layersOverlap (already sorted by descending top). -/
def modelOverlap : VelocityModel :=
  ⟨[⟨⟨-10, 5⟩, 1⟩, ⟨⟨0, 1⟩, 1⟩]⟩

/-- Two-station observation system inside model3's range. -/
def os3 : ObservationSystem :=
  ⟨[⟨1, ⟨0, 0, -80⟩⟩, ⟨2, ⟨0, 0, -60⟩⟩]⟩

/-- Unfolding: the loop on an empty layer list returns the accumulators. -/
theorem intervalLoop_nil (ai : Interval) (tth tti : ℚ) :
    intervalLoop ai [] tth tti = .ok (tth, tti) := rfl

/-- Unfolding: a layer entirely above the query span is skipped. -/
theorem intervalLoop_skip (ai : Interval) (l : Layer) (rest : List Layer)
    (tth tti : ℚ) (h : ai.max_val < l.bot) :
    intervalLoop ai (l :: rest) tth tti = intervalLoop ai rest tth tti := by
  simp only [intervalLoop, Layer.bot] at h ⊢
  rw [if_pos h]

/-- Unfolding: the loop stops at the first layer whose top is below the
query bottom, returning the accumulators. -/
theorem intervalLoop_break (ai : Interval) (l : Layer) (rest : List Layer)
    (tth tti : ℚ) (h1 : ¬ ai.max_val < l.bot) (h2 : l.top < ai.min_val) :
    intervalLoop ai (l :: rest) tth tti = .ok (tth, tti) := by
  simp only [intervalLoop, Layer.bot, Layer.top] at h1 h2 ⊢
  rw [if_neg h1, if_pos h2]

/-- Unfolding: an intersecting layer with nonzero velocity adds its
loopThickness to the thickness accumulator and loopThickness / vp to the
time accumulator. -/
theorem intervalLoop_step (ai : Interval) (l : Layer) (rest : List Layer)
    (tth tti : ℚ) (h1 : ¬ ai.max_val < l.bot) (h2 : ¬ l.top < ai.min_val)
    (h3 : l.vp ≠ 0) :
    intervalLoop ai (l :: rest) tth tti =
      intervalLoop ai rest (tth + loopThickness ai l)
        (tti + loopThickness ai l / l.vp) := by
  simp only [intervalLoop, Layer.bot, Layer.top] at h1 h2 ⊢
  rw [if_neg h1, if_neg h2, if_neg h3]

/-- Unfolding: an intersecting layer with zero velocity makes the loop fail
with ZeroDivisionError. -/
theorem intervalLoop_vp_zero (ai : Interval) (l : Layer) (rest : List Layer)
    (tth tti : ℚ) (h1 : ¬ ai.max_val < l.bot) (h2 : ¬ l.top < ai.min_val)
    (h3 : l.vp = 0) :
    intervalLoop ai (l :: rest) tth tti = .error .zeroDivision := by
  simp only [intervalLoop, Layer.bot, Layer.top] at h1 h2 ⊢
  rw [if_neg h1, if_neg h2, if_pos h3]

/-- The loopThickness of a non-skipped, non-breaking well-formed layer is
nonnegative. -/
theorem loopThickness_nonneg (ai : Interval) (l : Layer)
    (h1 : ¬ ai.max_val < l.bot) (h2 : ¬ l.top < ai.min_val)
    (hv : l.bot ≤ l.top) : 0 ≤ loopThickness ai l := by
  simp only [Layer.bot, Layer.top] at h1 h2 hv
  unfold loopThickness
  split_ifs with hA hB
  · linarith [hA.1]
  · linarith [hB.2]
  · simp only [Layer.thickness, Interval.length]
    linarith

/-- A layer sitting just above the query span (its bottom at the query top)
contributes zero thickness. -/
theorem loopThickness_zero_above (ai : Interval) (l : Layer)
    (hb : l.bot = ai.max_val) (hv : l.bot ≤ l.top)
    (hab : ai.min_val < ai.max_val) : loopThickness ai l = 0 := by
  simp only [Layer.bot, Layer.top] at hb hv
  unfold loopThickness
  split_ifs with hA hB
  · rw [hb]
    ring
  · linarith [hB.1]
  · have ht : l.altitude_interval.max_val = ai.max_val := by
      rcases lt_or_eq_of_le hv with h | h
      · exact absurd ⟨le_of_eq hb, hb ▸ h⟩ hA
      · rw [← h, hb]
    simp only [Layer.thickness, Interval.length, ht, hb]
    ring

/-- A layer sitting just below the query span (its top at the query bottom)
contributes zero thickness. -/
theorem loopThickness_zero_below (ai : Interval) (l : Layer)
    (ht : l.top = ai.min_val) (hv : l.bot ≤ l.top)
    (hab : ai.min_val ≤ ai.max_val) : loopThickness ai l = 0 := by
  simp only [Layer.bot, Layer.top] at ht hv
  unfold loopThickness
  split_ifs with hA hB
  · linarith [hA.2]
  · rw [ht]
    ring
  · have hbot : l.altitude_interval.min_val = ai.min_val := by
      rcases lt_or_eq_of_le hv with h | h
      · exact absurd ⟨ht ▸ h, le_of_eq ht.symm⟩ hB
      · rw [h, ht]
    simp only [Layer.thickness, Interval.length, ht, hbot]
    ring

/-- In a contiguous stack of well-formed layers, every layer's top is at
most the first layer's top. -/
theorem top_le_head_top (x : Layer) (xs : List Layer)
    (hchain : contiguousLayers (x :: xs)) (hwf : ∀ l ∈ x :: xs, l.wf) :
    ∀ l ∈ x :: xs, l.top ≤ x.top := by
  induction xs generalizing x with
  | nil =>
    intro l hl
    rw [List.mem_singleton] at hl
    exact le_of_eq (congrArg Layer.top hl)
  | cons y ys ih =>
    intro l hl
    have hxy : x.bot = y.top := (List.chain'_cons.mp hchain).1
    have hchain' : contiguousLayers (y :: ys) := (List.chain'_cons.mp hchain).2
    have hwf' : ∀ l ∈ y :: ys, l.wf := fun l hl => hwf l (List.mem_cons_of_mem x hl)
    rcases List.mem_cons.mp hl with h | h
    · exact le_of_eq (congrArg Layer.top h)
    · have := ih y hchain' hwf' l h
      have hx : x.bot ≤ x.top := (hwf x (List.mem_cons_self x _)).1
      calc l.top ≤ y.top := this
        _ = x.bot := hxy.symm
        _ ≤ x.top := hx

/-- In a contiguous stack of well-formed layers, the last layer's bottom is
at most every layer's bottom. -/
theorem last_bot_le_bot (x : Layer) (xs : List Layer)
    (hchain : contiguousLayers (x :: xs)) (hwf : ∀ l ∈ x :: xs, l.wf) :
    ∀ lb, (x :: xs).getLast? = some lb → ∀ l ∈ x :: xs, lb.bot ≤ l.bot := by
  induction xs generalizing x with
  | nil =>
    intro lb hlb l hl
    rw [List.mem_singleton] at hl
    simp only [List.getLast?_singleton, Option.some.injEq] at hlb
    rw [hl, ← hlb]
  | cons y ys ih =>
    intro lb hlb l hl
    have hxy : x.bot = y.top := (List.chain'_cons.mp hchain).1
    have hchain' : contiguousLayers (y :: ys) := (List.chain'_cons.mp hchain).2
    have hwf' : ∀ l ∈ y :: ys, l.wf := fun l hl => hwf l (List.mem_cons_of_mem x hl)
    have hlb' : (y :: ys).getLast? = some lb := by
      rw [← hlb, List.getLast?_cons_cons]
    rcases List.mem_cons.mp hl with h | h
    · have hy : lb.bot ≤ y.bot := ih y hchain' hwf' lb hlb' y (List.mem_cons_self y _)
      have hyv : y.bot ≤ y.top := (hwf' y (List.mem_cons_self y _)).1
      calc lb.bot ≤ y.bot := hy
        _ ≤ y.top := hyv
        _ = x.bot := hxy.symm
        _ = l.bot := congrArg Layer.bot h.symm
    · exact ih y hchain' hwf' lb hlb' l h

/-- Membership from getLast?. -/
theorem mem_of_getLast? {α : Type} {ls : List α} {b : α}
    (h : ls.getLast? = some b) : b ∈ ls := by
  induction ls with
  | nil => simp at h
  | cons x xs ih =>
    cases xs with
    | nil =>
      simp only [List.getLast?_singleton, Option.some.injEq] at h
      rw [h]
      exact List.mem_singleton_self _
    | cons y ys =>
      rw [List.getLast?_cons_cons] at h
      exact List.mem_cons_of_mem x (ih h)

/-- In a well-formed model every layer lies between min_altitude and
max_altitude. -/
theorem layer_bounds (m : VelocityModel) (hwf : m.wellFormed) :
    ∀ l ∈ m.layers, m.min_altitude ≤ l.bot ∧ l.top ≤ m.max_altitude := by
  obtain ⟨hne, hwfl, hchain⟩ := hwf
  intro l hl
  match hm : m.layers with
  | [] => rw [hm] at hl; simp at hl
  | x :: xs =>
    rw [hm] at hl hwfl hchain
    constructor
    · have hlast : ∃ lb, (x :: xs).getLast? = some lb := by
        cases h : (x :: xs).getLast? with
        | none => rw [List.getLast?_eq_none_iff] at h; simp at h
        | some lb => exact ⟨lb, rfl⟩
      obtain ⟨lb, hlb⟩ := hlast
      have : m.min_altitude = lb.bot := by
        unfold VelocityModel.min_altitude
        rw [hm, hlb]
        rfl
      rw [this]
      exact last_bot_le_bot x xs hchain hwfl lb hlb l hl
    · have : m.max_altitude = x.top := by
        unfold VelocityModel.max_altitude
        rw [hm]
        rfl
      rw [this]
      exact top_le_head_top x xs hchain hwfl l hl

/-- min_altitude of a well-formed model is at most its max_altitude. -/
theorem min_le_max_altitude (m : VelocityModel) (hwf : m.wellFormed) :
    m.min_altitude ≤ m.max_altitude := by
  obtain ⟨hne, hwfl, hchain⟩ := hwf
  match hm : m.layers with
  | [] => exact absurd hm hne
  | x :: xs =>
    obtain ⟨h1, h2⟩ := layer_bounds m ⟨hne, hwfl, hchain⟩ x
      (by rw [hm]; exact List.mem_cons_self x _)
    have hx : x.bot ≤ x.top := (hwfl x (by rw [hm]; exact List.mem_cons_self x _)).1
    linarith

/-- In a contiguous stack whose last bottom is below a and whose first top
is at least a, some layer contains a in the half-open sense. -/
theorem exists_containing (x : Layer) (xs : List Layer)
    (hchain : contiguousLayers (x :: xs)) (a : ℚ)
    (lb : Layer) (hlb : (x :: xs).getLast? = some lb)
    (hbot : lb.bot < a) (htop : a ≤ x.top) :
    ∃ l ∈ x :: xs, l.bot < a ∧ a ≤ l.top := by
  induction xs generalizing x with
  | nil =>
    simp only [List.getLast?_singleton, Option.some.injEq] at hlb
    exact ⟨x, List.mem_singleton_self x, hlb ▸ hbot, htop⟩
  | cons y ys ih =>
    have hxy : x.bot = y.top := (List.chain'_cons.mp hchain).1
    have hchain' : contiguousLayers (y :: ys) := (List.chain'_cons.mp hchain).2
    have hlb' : (y :: ys).getLast? = some lb := by
      rw [← hlb, List.getLast?_cons_cons]
    by_cases hxa : x.bot < a
    · exact ⟨x, List.mem_cons_self x _, hxa, htop⟩
    · have hya : a ≤ y.top := by
        rw [← hxy]
        exact le_of_not_lt hxa
      obtain ⟨l, hl, h1, h2⟩ := ih y hchain' hlb' hya
      exact ⟨l, List.mem_cons_of_mem x hl, h1, h2⟩

/-- The top-down scan returns the vp of any layer of a contiguous
well-formed stack that contains the query altitude in the half-open
sense (such a layer is necessarily the first match). -/
theorem findLayer_eq (ls : List Layer) (hchain : contiguousLayers ls)
    (hwf : ∀ l ∈ ls, l.wf) (l : Layer) (hl : l ∈ ls) (a : ℚ)
    (h1 : l.bot < a) (h2 : a ≤ l.top) :
    findLayer ls a = .ok l.vp := by
  induction ls with
  | nil => simp at hl
  | cons x xs ih =>
    rcases List.mem_cons.mp hl with h | h
    · subst h
      unfold findLayer
      rw [if_pos ⟨h1, h2⟩]
    · match xs, h with
      | y :: ys, h =>
        have hxy : x.bot = y.top := (List.chain'_cons.mp hchain).1
        have hchain' : contiguousLayers (y :: ys) := (List.chain'_cons.mp hchain).2
        have hwf' : ∀ l' ∈ y :: ys, l'.wf :=
          fun l' hl' => hwf l' (List.mem_cons_of_mem x hl')
        have hlt : l.top ≤ y.top := top_le_head_top y ys hchain' hwf' l h
        have hxb : a ≤ x.bot := by
          rw [hxy]
          exact le_trans h2 hlt
        have hcond : ¬ (x.altitude_interval.min_val < a ∧
            a ≤ x.altitude_interval.max_val) := by
          intro hc
          exact absurd hxb (not_le.mpr hc.1)
        unfold findLayer
        rw [if_neg hcond]
        exact ih hchain' hwf' h

/-- Boundary characterization of get_velocity_by_altitude on a well-formed
model: the global bottom returns the deepest layer's vp; any altitude lying
in a layer's half-open interval returns that layer's vp; and every in-range
altitude above the global bottom lies in some layer. -/
theorem velocity_by_altitude_spec (m : VelocityModel) (hwf : m.wellFormed)
    (a : ℚ) :
    (a = m.min_altitude → ∀ lb, m.layers.getLast? = some lb →
      m.get_velocity_by_altitude a = .ok lb.vp) ∧
    (∀ l ∈ m.layers, l.bot < a → a ≤ l.top →
      m.get_velocity_by_altitude a = .ok l.vp) ∧
    (m.min_altitude < a → a ≤ m.max_altitude →
      ∃ l ∈ m.layers, l.bot < a ∧ a ≤ l.top) := by
  obtain ⟨hne, hwfl, hchain⟩ := hwf
  refine ⟨?_, ?_, ?_⟩
  · intro ha lb hlb
    unfold VelocityModel.get_velocity_by_altitude
    rw [if_neg (by rw [ha]; exact lt_irrefl _), if_pos ha, hlb]
  · intro l hl h1 h2
    have hb := layer_bounds m ⟨hne, hwfl, hchain⟩ l hl
    have hmin : m.min_altitude < a := lt_of_le_of_lt hb.1 h1
    have hmax : a ≤ m.max_altitude := le_trans h2 hb.2
    unfold VelocityModel.get_velocity_by_altitude
    rw [if_neg (not_lt.mpr (le_of_lt hmin)), if_neg (ne_of_gt hmin),
      if_neg (not_lt.mpr hmax)]
    exact findLayer_eq m.layers hchain hwfl l hl a h1 h2
  · intro hmin hmax
    match hm : m.layers with
    | [] => exact absurd hm hne
    | x :: xs =>
      rw [hm] at hchain
      have hlast : ∃ lb, (x :: xs).getLast? = some lb := by
        cases h : (x :: xs).getLast? with
        | none => rw [List.getLast?_eq_none_iff] at h; simp at h
        | some lb => exact ⟨lb, rfl⟩
      obtain ⟨lb, hlb⟩ := hlast
      have hminv : m.min_altitude = lb.bot := by
        unfold VelocityModel.min_altitude
        rw [hm, hlb]
        rfl
      have hmaxv : m.max_altitude = x.top := by
        unfold VelocityModel.max_altitude
        rw [hm]
        rfl
      exact exists_containing x xs hchain a lb hlb
        (hminv ▸ hmin) (hmaxv ▸ hmax)

/-- On a well-formed model, every in-range altitude query succeeds and
returns a strictly positive velocity. -/
theorem velocity_by_altitude_pos (m : VelocityModel) (hwf : m.wellFormed)
    (a : ℚ) (hmin : m.min_altitude ≤ a) (hmax : a ≤ m.max_altitude) :
    ∃ v, m.get_velocity_by_altitude a = .ok v ∧ 0 < v := by
  obtain ⟨hne, hwfl, hchain⟩ := hwf
  have hspec := velocity_by_altitude_spec m ⟨hne, hwfl, hchain⟩ a
  rcases eq_or_lt_of_le hmin with heq | hlt
  · have hlast : ∃ lb, m.layers.getLast? = some lb := by
      cases h : m.layers.getLast? with
      | none => rw [List.getLast?_eq_none_iff] at h; exact absurd h hne
      | some lb => exact ⟨lb, rfl⟩
    obtain ⟨lb, hlb⟩ := hlast
    refine ⟨lb.vp, hspec.1 heq.symm lb hlb, ?_⟩
    exact (hwfl lb (mem_of_getLast? hlb)).2
  · obtain ⟨l, hl, h1, h2⟩ := hspec.2.2 hlt hmax
    exact ⟨l.vp, hspec.2.1 l hl h1 h2, (hwfl l hl).2⟩

/-- The loop over well-formed layers never fails and never decreases either
accumulator. -/
theorem intervalLoop_mono (ai : Interval) (ls : List Layer)
    (hwf : ∀ l ∈ ls, l.wf) (tth tti : ℚ) :
    ∃ p, intervalLoop ai ls tth tti = .ok p ∧ tth ≤ p.1 ∧ tti ≤ p.2 := by
  induction ls generalizing tth tti with
  | nil => exact ⟨(tth, tti), intervalLoop_nil ai tth tti, le_refl _, le_refl _⟩
  | cons x xs ih =>
    have hx : x.wf := hwf x (List.mem_cons_self x _)
    have hwf' : ∀ l ∈ xs, l.wf := fun l hl => hwf l (List.mem_cons_of_mem x hl)
    by_cases hskip : ai.max_val < x.bot
    · rw [intervalLoop_skip ai x xs tth tti hskip]
      exact ih hwf' tth tti
    · by_cases hbreak : x.top < ai.min_val
      · rw [intervalLoop_break ai x xs tth tti hskip hbreak]
        exact ⟨(tth, tti), rfl, le_refl _, le_refl _⟩
      · have hvp : x.vp ≠ 0 := ne_of_gt hx.2
        rw [intervalLoop_step ai x xs tth tti hskip hbreak hvp]
        have hth : 0 ≤ loopThickness ai x :=
          loopThickness_nonneg ai x hskip hbreak hx.1
        obtain ⟨p, hp, h1, h2⟩ := ih hwf'
          (tth + loopThickness ai x) (tti + loopThickness ai x / x.vp)
        refine ⟨p, hp, ?_, ?_⟩
        · linarith
        · have : 0 ≤ loopThickness ai x / x.vp :=
            div_nonneg hth (le_of_lt hx.2)
          linarith

/-- When some layer of a contiguous well-formed stack contains the query top
strictly above its bottom, the loop strictly increases both accumulators. -/
theorem intervalLoop_pos (ai : Interval) (hab : ai.min_val < ai.max_val)
    (ls : List Layer) (hwf : ∀ l ∈ ls, l.wf)
    (hchain : contiguousLayers ls) (l : Layer) (hl : l ∈ ls)
    (hbot : l.bot < ai.max_val) (htop : ai.max_val ≤ l.top) (tth tti : ℚ) :
    ∃ p, intervalLoop ai ls tth tti = .ok p ∧ tth < p.1 ∧ tti < p.2 := by
  induction ls generalizing tth tti with
  | nil => simp at hl
  | cons x xs ih =>
    have hx : x.wf := hwf x (List.mem_cons_self x _)
    have hwf' : ∀ l' ∈ xs, l'.wf := fun l' hl' => hwf l' (List.mem_cons_of_mem x hl')
    have hchain' : contiguousLayers xs := List.Chain'.tail hchain
    rcases List.mem_cons.mp hl with hcase | hcase
    · have hbot' : x.bot < ai.max_val := hcase ▸ hbot
      have htop' : ai.max_val ≤ x.top := hcase ▸ htop
      have hskip : ¬ ai.max_val < x.bot := not_lt.mpr (le_of_lt hbot')
      have hbreak : ¬ x.top < ai.min_val := by
        have : ai.min_val < x.top := lt_of_lt_of_le hab htop'
        exact not_lt.mpr (le_of_lt this)
      have hvp : x.vp ≠ 0 := ne_of_gt hx.2
      rw [intervalLoop_step ai x xs tth tti hskip hbreak hvp]
      have hth : 0 < loopThickness ai x := by
        simp only [Layer.bot, Layer.top] at hbot' htop'
        unfold loopThickness
        split_ifs with hA hB
        · linarith
        · linarith [hB.1]
        · simp only [Layer.thickness, Interval.length]
          rcases lt_or_eq_of_le htop' with h | h
          · exact absurd ⟨le_of_lt hbot', h⟩ hA
          · linarith
      obtain ⟨p, hp, h1, h2⟩ := intervalLoop_mono ai xs hwf'
        (tth + loopThickness ai x) (tti + loopThickness ai x / x.vp)
      refine ⟨p, hp, ?_, ?_⟩
      · linarith
      · have : 0 < loopThickness ai x / x.vp := div_pos hth hx.2
        linarith
    · match xs, hwf', hchain', hcase, ih with
      | y :: ys, hwf', hchain', hcase, ih =>
        have hxy : x.bot = y.top := (List.chain'_cons.mp hchain).1
        have hlt : l.top ≤ y.top :=
          top_le_head_top y ys hchain' hwf' l hcase
        have hxbot : ai.max_val ≤ x.bot := by
          rw [hxy]
          exact le_trans htop hlt
        by_cases hskip : ai.max_val < x.bot
        · rw [intervalLoop_skip ai x (y :: ys) tth tti hskip]
          exact ih hwf' hchain' hcase tth tti
        · have hxb : x.bot = ai.max_val :=
            le_antisymm (le_of_not_lt hskip) hxbot
          have hbreak : ¬ x.top < ai.min_val := by
            have h0 : ai.min_val < x.bot := hxb ▸ hab
            have := lt_of_lt_of_le h0 hx.1
            exact not_lt.mpr (le_of_lt this)
          have hvp : x.vp ≠ 0 := ne_of_gt hx.2
          rw [intervalLoop_step ai x (y :: ys) tth tti hskip hbreak hvp]
          rw [loopThickness_zero_above ai x hxb hx.1 hab]
          rw [add_zero, zero_div, add_zero]
          exact ih hwf' hchain' hcase tth tti

/-- On a well-formed model, every in-range interval query succeeds and
returns a strictly positive velocity; a positive-length query moreover
filters through the loop with strictly positive totals. -/
theorem interval_velocity_ok (m : VelocityModel) (hwf : m.wellFormed)
    (a b : ℚ) (hab : a ≤ b) (hmin : m.min_altitude ≤ a)
    (hmax : b ≤ m.max_altitude) :
    ∃ v, m.get_interval_velocity ⟨a, b⟩ = .ok v ∧ 0 < v := by
  obtain ⟨hne, hwfl, hchain⟩ := hwf
  unfold VelocityModel.get_interval_velocity
  simp only
  rw [if_neg (not_lt.mpr hmin), if_neg (not_lt.mpr hmax)]
  rcases eq_or_lt_of_le hab with heq | hlt
  · subst heq
    rw [if_pos (by simp [Interval.length])]
    exact velocity_by_altitude_pos m ⟨hne, hwfl, hchain⟩ a hmin hmax
  · rw [if_neg (by simp only [Interval.length]; intro h; linarith)]
    have hcont : ∃ l ∈ m.layers, l.bot < b ∧ b ≤ l.top := by
      have := (velocity_by_altitude_spec m ⟨hne, hwfl, hchain⟩ b).2.2
      exact this (lt_of_le_of_lt hmin hlt) hmax
    obtain ⟨l, hl, h1, h2⟩ := hcont
    obtain ⟨p, hp, hp1, hp2⟩ := intervalLoop_pos ⟨a, b⟩ hlt m.layers
      hwfl hchain l hl h1 h2 0 0
    rw [hp]
    simp only
    rw [if_neg (ne_of_gt hp2)]
    exact ⟨p.1 / p.2, rfl, div_pos hp1 hp2⟩

/-- Layers whose bottom is at or above the query top contribute nothing:
the loop passes over them unchanged. -/
theorem intervalLoop_above (ai : Interval) (hab : ai.min_val < ai.max_val)
    (P rest : List Layer)
    (hP : ∀ p ∈ P, ai.max_val ≤ p.bot ∧ p.wf) (tth tti : ℚ) :
    intervalLoop ai (P ++ rest) tth tti = intervalLoop ai rest tth tti := by
  induction P with
  | nil => rfl
  | cons x P' ih =>
    have hx := hP x (List.mem_cons_self x _)
    have hP' : ∀ p ∈ P', ai.max_val ≤ p.bot ∧ p.wf :=
      fun p hp => hP p (List.mem_cons_of_mem x hp)
    rw [List.cons_append]
    by_cases hskip : ai.max_val < x.bot
    · rw [intervalLoop_skip ai x (P' ++ rest) tth tti hskip]
      exact ih hP'
    · have hxb : x.bot = ai.max_val := le_antisymm (le_of_not_lt hskip) hx.1
      have hbreak : ¬ x.top < ai.min_val := by
        have h0 : ai.min_val < x.bot := hxb ▸ hab
        exact not_lt.mpr (le_of_lt (lt_of_lt_of_le h0 hx.2.1))
      have hvp : x.vp ≠ 0 := ne_of_gt hx.2.2
      rw [intervalLoop_step ai x (P' ++ rest) tth tti hskip hbreak hvp]
      rw [loopThickness_zero_above ai x hxb hx.2.1 hab]
      rw [add_zero, zero_div, add_zero]
      exact ih hP'

/-- Layers whose top is at or below the query bottom contribute nothing:
the loop returns the accumulators outright on such a tail. -/
theorem intervalLoop_suffix (ai : Interval) (hab : ai.min_val ≤ ai.max_val)
    (S : List Layer) (hS : ∀ s ∈ S, s.top ≤ ai.min_val ∧ s.wf)
    (tth tti : ℚ) :
    intervalLoop ai S tth tti = .ok (tth, tti) := by
  induction S with
  | nil => rfl
  | cons s S' ih =>
    have hs := hS s (List.mem_cons_self s _)
    have hS' : ∀ t ∈ S', t.top ≤ ai.min_val ∧ t.wf :=
      fun t ht => hS t (List.mem_cons_of_mem s ht)
    by_cases hbreak : s.top < ai.min_val
    · have hskip : ¬ ai.max_val < s.bot := by
        have : s.bot ≤ s.top := hs.2.1
        push_neg
        linarith
      exact intervalLoop_break ai s S' tth tti hskip hbreak
    · have hst : s.top = ai.min_val := le_antisymm hs.1 (le_of_not_lt hbreak)
      have hskip : ¬ ai.max_val < s.bot := by
        have : s.bot ≤ s.top := hs.2.1
        push_neg
        linarith
      have hvp : s.vp ≠ 0 := ne_of_gt hs.2.2
      rw [intervalLoop_step ai s S' tth tti hskip hbreak hvp]
      rw [loopThickness_zero_below ai s hst hs.2.1 hab]
      rw [add_zero, zero_div, add_zero]
      exact ih hS'

/-- In a contiguous well-formed stack, every layer before l lies entirely at
or above l's top. -/
theorem chain_before (P : List Layer) (l : Layer) (rest : List Layer)
    (hchain : contiguousLayers (P ++ l :: rest))
    (hwf : ∀ p ∈ P ++ l :: rest, p.wf) :
    ∀ p ∈ P, l.top ≤ p.bot := by
  induction P with
  | nil => intro p hp; simp at hp
  | cons x P' ih =>
    intro p hp
    rw [List.cons_append] at hchain hwf
    have hchain' : contiguousLayers (P' ++ l :: rest) := List.Chain'.tail hchain
    have hwf' : ∀ q ∈ P' ++ l :: rest, q.wf :=
      fun q hq => hwf q (List.mem_cons_of_mem x hq)
    rcases List.mem_cons.mp hp with h | h
    · subst h
      cases hPl : P' ++ l :: rest with
      | nil => exact absurd hPl (List.append_ne_nil_of_right_ne_nil P' (by simp))
      | cons y zs =>
        rw [hPl] at hchain' hwf'
        have hxy : p.bot = y.top := by
          have := (List.chain'_cons.mp (hPl ▸ hchain)).1
          exact this
        have hly : l.top ≤ y.top := by
          apply top_le_head_top y zs hchain' hwf' l
          rw [← hPl]
          exact List.mem_append_right P' (List.mem_cons_self l rest)
        rw [hxy]
        exact hly
    · exact ih hchain' hwf' p h

/-- In a contiguous well-formed stack, every layer after l lies entirely at
or below l's bottom. -/
theorem chain_after (A : List Layer) (l : Layer) (S : List Layer)
    (hchain : contiguousLayers (A ++ l :: S))
    (hwf : ∀ p ∈ A ++ l :: S, p.wf) :
    ∀ s ∈ S, s.top ≤ l.bot := by
  have hchainl : contiguousLayers (l :: S) := by
    induction A with
    | nil => exact hchain
    | cons x A' ih =>
      rw [List.cons_append] at hchain hwf
      exact ih (List.Chain'.tail hchain) (fun q hq => hwf q (List.mem_cons_of_mem x hq))
  intro s hs
  match hS : S, hs with
  | y :: ys, hs =>
    have hly : l.bot = y.top := (List.chain'_cons.mp hchainl).1
    have hchainS : contiguousLayers (y :: ys) := (List.chain'_cons.mp hchainl).2
    have hwfS : ∀ q ∈ y :: ys, q.wf := by
      intro q hq
      apply hwf
      apply List.mem_append_right A
      exact List.mem_cons_of_mem l hq
    have := top_le_head_top y ys hchainS hwfS s hs
    rw [hly]
    exact this

/-- Dropping a prefix of a contiguous stack keeps it contiguous. -/
theorem chain_suffix (A rest : List Layer)
    (h : contiguousLayers (A ++ rest)) : contiguousLayers rest := by
  induction A with
  | nil => exact h
  | cons x A' ih =>
    rw [List.cons_append] at h
    exact ih (List.Chain'.tail h)

/-- Projection of the anonymous Interval constructor: lower bound. -/
theorem mk_min_val (x y : ℚ) : Interval.min_val ⟨x, y⟩ = x := rfl

/-- Projection of the anonymous Interval constructor: upper bound. -/
theorem mk_max_val (x y : ℚ) : Interval.max_val ⟨x, y⟩ = y := rfl

/-- C1: on a well-formed model (contiguous, non-overlapping, strictly
positive vp layers), a query that exactly spans two adjacent layers — from
the deeper layer's bottom to the shallower layer's top — returns the
thickness-weighted harmonic combination
(t1 + t2) / (t1 / v1 + t2 / v2). -/
theorem interval_velocity_two_layers (m : VelocityModel) (P S : List Layer)
    (l1 l2 : Layer) (hwf : m.wellFormed)
    (hsplit : m.layers = P ++ l1 :: l2 :: S)
    (hab : l2.altitude_interval.min_val < l1.altitude_interval.max_val) :
    m.get_interval_velocity
        ⟨l2.altitude_interval.min_val, l1.altitude_interval.max_val⟩ =
      .ok ((l1.thickness + l2.thickness) /
        (l1.thickness / l1.vp + l2.thickness / l2.vp)) := by
  obtain ⟨hne, hwfl, hchain⟩ := hwf
  have hl1 : l1 ∈ m.layers := by
    rw [hsplit]
    exact List.mem_append_right P (List.mem_cons_self l1 _)
  have hl2 : l2 ∈ m.layers := by
    rw [hsplit]
    exact List.mem_append_right P (List.mem_cons_of_mem l1 (List.mem_cons_self l2 _))
  have hwf1 : l1.wf := hwfl l1 hl1
  have hwf2 : l2.wf := hwfl l2 hl2
  have hjunction : l1.bot = l2.top := by
    have h1 : contiguousLayers (l1 :: l2 :: S) := by
      apply chain_suffix P
      rw [← hsplit]
      exact hchain
    exact (List.chain'_cons.mp h1).1
  have hbounds1 := layer_bounds m ⟨hne, hwfl, hchain⟩ l1 hl1
  have hbounds2 := layer_bounds m ⟨hne, hwfl, hchain⟩ l2 hl2
  have hmin : m.min_altitude ≤ l2.altitude_interval.min_val := hbounds2.1
  have hmax : l1.altitude_interval.max_val ≤ m.max_altitude := hbounds1.2
  have hb1 : l1.altitude_interval.min_val ≤ l1.altitude_interval.max_val := hwf1.1
  have hb2 : l2.altitude_interval.min_val ≤ l2.altitude_interval.max_val := hwf2.1
  simp only [Layer.bot, Layer.top] at hjunction
  have hloop : intervalLoop
      ⟨l2.altitude_interval.min_val, l1.altitude_interval.max_val⟩
      m.layers 0 0 =
      .ok (0 + l1.thickness + l2.thickness,
        0 + l1.thickness / l1.vp + l2.thickness / l2.vp) := by
    rw [hsplit]
    rw [intervalLoop_above _ (by exact hab) P _ ?hP]
    case hP =>
      intro p hp
      have hpm : p ∈ m.layers := by
        rw [hsplit]
        exact List.mem_append_left _ hp
      have hcb := chain_before P l1 (l2 :: S) (by rw [← hsplit]; exact hchain)
        (by rw [← hsplit]; exact hwfl) p hp
      exact ⟨hcb, hwfl p hpm⟩
    rw [intervalLoop_step _ l1 _ 0 0 ?h1skip ?h1break (ne_of_gt hwf1.2)]
    case h1skip =>
      simp only [Layer.bot, mk_max_val]
      push_neg
      exact hb1
    case h1break =>
      simp only [Layer.top, mk_min_val]
      push_neg
      exact le_of_lt hab
    rw [intervalLoop_step _ l2 _ _ _ ?h2skip ?h2break (ne_of_gt hwf2.2)]
    case h2skip =>
      simp only [Layer.bot, mk_max_val]
      push_neg
      exact le_of_lt hab
    case h2break =>
      simp only [Layer.top, mk_min_val]
      push_neg
      exact hb2
    rw [intervalLoop_suffix _ (by exact le_of_lt hab) S ?hS]
    case hS =>
      intro s hs
      have hsm : s ∈ m.layers := by
        rw [hsplit]
        exact List.mem_append_right P
          (List.mem_cons_of_mem l1 (List.mem_cons_of_mem l2 hs))
      have hassoc : m.layers = (P ++ [l1]) ++ l2 :: S := by
        rw [hsplit]
        simp
      have hca := chain_after (P ++ [l1]) l2 S (by rw [← hassoc]; exact hchain)
        (by rw [← hassoc]; exact hwfl) s hs
      exact ⟨hca, hwfl s hsm⟩
    have ht1 : loopThickness
        ⟨l2.altitude_interval.min_val, l1.altitude_interval.max_val⟩ l1 =
        l1.thickness := by
      unfold loopThickness
      simp only [mk_min_val, mk_max_val]
      split_ifs with hA hB
      · exact absurd hA.2 (lt_irrefl _)
      · exact absurd hB.1 (by push_neg; linarith)
      · rfl
    have ht2 : loopThickness
        ⟨l2.altitude_interval.min_val, l1.altitude_interval.max_val⟩ l2 =
        l2.thickness := by
      unfold loopThickness
      simp only [mk_min_val, mk_max_val]
      split_ifs with hA hB
      · exact absurd hA.2 (by push_neg; linarith)
      · exact absurd hB.1 (lt_irrefl _)
      · rfl
    rw [ht1, ht2]
  have htt1 : l1.thickness = l1.altitude_interval.max_val -
      l1.altitude_interval.min_val := rfl
  have htt2 : l2.thickness = l2.altitude_interval.max_val -
      l2.altitude_interval.min_val := rfl
  have htime : 0 < l1.thickness / l1.vp + l2.thickness / l2.vp := by
    have h1 : 0 ≤ l1.thickness := by rw [htt1]; linarith
    have h2 : 0 ≤ l2.thickness := by rw [htt2]; linarith
    have hd1 : 0 ≤ l1.thickness / l1.vp := div_nonneg h1 (le_of_lt hwf1.2)
    have hd2 : 0 ≤ l2.thickness / l2.vp := div_nonneg h2 (le_of_lt hwf2.2)
    rcases lt_or_eq_of_le h1 with hp1 | hz1
    · have : 0 < l1.thickness / l1.vp := div_pos hp1 hwf1.2
      linarith
    · have hp2 : 0 < l2.thickness := by
        rw [htt2]
        rw [htt1] at hz1
        linarith [hz1]
      have : 0 < l2.thickness / l2.vp := div_pos hp2 hwf2.2
      linarith
  unfold VelocityModel.get_interval_velocity
  simp only [mk_min_val, mk_max_val]
  rw [if_neg (not_lt.mpr hmin), if_neg (not_lt.mpr hmax)]
  rw [if_neg (by
    simp only [Interval.length, mk_min_val, mk_max_val]
    intro h
    linarith)]
  rw [hloop]
  simp only
  rw [if_neg (by rw [zero_add]; exact ne_of_gt htime)]
  rw [zero_add, zero_add]

/-- C1 witness: the three-layer model, queried from the bottom of the
deepest layer to the top of the middle layer, yields the harmonic
combination (10 + 10) / (10/2 + 10/3). -/
theorem interval_velocity_two_layers_witness :
    model3.get_interval_velocity ⟨-90, -70⟩ = .ok (12 / 5) := by
  have h := interval_velocity_two_layers model3 [⟨⟨-70, -60⟩, 1⟩] []
    ⟨⟨-80, -70⟩, 2⟩ ⟨⟨-90, -80⟩, 3⟩ (by decide) rfl (by decide)
  refine Eq.trans h ?_
  norm_num [Layer.thickness, Interval.length]

/-- C2 counterexample: on the spec's own three-layer model the shared
boundary -80 returns the deeper layer's velocity 3, not 1 as the claim
states. -/
theorem velocity_boundary_cex :
    VelocityModel.make layers3 = .ok model3 ∧
    model3.get_velocity_by_altitude (-80) = .ok 3 ∧
    (Except.ok (3 : ℚ) : Except Err ℚ) ≠ .ok 1 := by
  refine ⟨by rfl, by rfl, by decide⟩

/-- C2 amended: on the model built from layers3,
get_velocity_by_altitude gives 2 at -75, 3 at -80 (the lower boundary of a
layer belongs to the next deeper layer), and 3 at -90 (inclusive global
bottom). -/
theorem velocity_boundary_amended :
    VelocityModel.make layers3 = .ok model3 ∧
    model3.get_velocity_by_altitude (-75) = .ok 2 ∧
    model3.get_velocity_by_altitude (-80) = .ok 3 ∧
    model3.get_velocity_by_altitude (-90) = .ok 3 := by
  refine ⟨by rfl, by rfl, by rfl, by rfl⟩

/-- C3: on a well-formed model, the global bottom altitude returns the
deepest layer's vp; any altitude in a layer's half-open interval
(bottom < a <= top) returns that layer's vp — so a shared boundary belongs
to the layer having it as lower... as upper bound — and every other
in-range altitude lies in such a layer. -/
theorem velocity_by_altitude_boundary_policy (m : VelocityModel)
    (hwf : m.wellFormed) (a : ℚ) :
    (a = m.min_altitude → ∀ lb, m.layers.getLast? = some lb →
      m.get_velocity_by_altitude a = .ok lb.vp) ∧
    (∀ l ∈ m.layers, l.bot < a → a ≤ l.top →
      m.get_velocity_by_altitude a = .ok l.vp) ∧
    (m.min_altitude < a → a ≤ m.max_altitude →
      ∃ l ∈ m.layers, l.bot < a ∧ a ≤ l.top) :=
  velocity_by_altitude_spec m hwf a

/-- C3 witness: -75 lies strictly inside the middle layer of the
three-layer model and returns its velocity 2. -/
theorem velocity_by_altitude_boundary_policy_witness :
    model3.get_velocity_by_altitude (-75) = .ok 2 :=
  (velocity_by_altitude_boundary_policy model3 (by decide) (-75)).2.1
    ⟨⟨-80, -70⟩, 2⟩ (by decide) (by decide) (by decide)

/-- C5: a zero-length in-range interval query delegates exactly to
get_velocity_by_altitude at that altitude. -/
theorem zero_length_delegates (m : VelocityModel) (hwf : m.wellFormed)
    (a : ℚ) (hmin : m.min_altitude ≤ a) (hmax : a ≤ m.max_altitude) :
    m.get_interval_velocity ⟨a, a⟩ = m.get_velocity_by_altitude a := by
  unfold VelocityModel.get_interval_velocity
  simp only [mk_min_val, mk_max_val]
  rw [if_neg (not_lt.mpr hmin), if_neg (not_lt.mpr hmax),
    if_pos (by simp [Interval.length, mk_min_val, mk_max_val])]

/-- C5 witness: the zero-length query at -75 equals the pointwise lookup
on the three-layer model. -/
theorem zero_length_delegates_witness :
    model3.get_interval_velocity ⟨-75, -75⟩ =
      model3.get_velocity_by_altitude (-75) :=
  zero_length_delegates model3 (by decide) (-75) (by decide) (by decide)

/-- C7: get_interval_velocity fails with OutOfRange exactly when a bound of
the (valid) query interval lies outside the model's altitude range; on a
well-formed model every in-range query succeeds. -/
theorem interval_velocity_out_of_range_iff (m : VelocityModel)
    (hwf : m.wellFormed) (a b : ℚ) (hab : a ≤ b) :
    ((a < m.min_altitude ∨ m.max_altitude < b) →
      m.get_interval_velocity ⟨a, b⟩ = .error .outOfRange) ∧
    (m.min_altitude ≤ a → b ≤ m.max_altitude →
      ∃ v, m.get_interval_velocity ⟨a, b⟩ = .ok v) := by
  constructor
  · intro hor
    unfold VelocityModel.get_interval_velocity
    simp only [mk_min_val, mk_max_val]
    rcases hor with h | h
    · rw [if_pos h]
    · by_cases h2 : a < m.min_altitude
      · rw [if_pos h2]
      · rw [if_neg h2, if_pos h]
  · intro h1 h2
    obtain ⟨v, hv, _⟩ := interval_velocity_ok m hwf a b hab h1 h2
    exact ⟨v, hv⟩

/-- C7 witness: a query reaching below the model floor fails with
OutOfRange on the three-layer model. -/
theorem interval_velocity_out_of_range_iff_witness :
    model3.get_interval_velocity ⟨-100, -60⟩ = .error .outOfRange :=
  (interval_velocity_out_of_range_iff model3 (by decide) (-100) (-60)
    (by decide)).1 (Or.inl (by decide))

/-- C10: on a well-formed model, every positive-length in-range query
reaches the final division with strictly positive accumulated total_time
(and total_thickness), so the division is well-defined and succeeds. -/
theorem interval_loop_time_positive (m : VelocityModel) (hwf : m.wellFormed)
    (a b : ℚ) (hmin : m.min_altitude ≤ a) (hab : a < b)
    (hmax : b ≤ m.max_altitude) :
    ∃ tth tti, intervalLoop ⟨a, b⟩ m.layers 0 0 = .ok (tth, tti) ∧
      0 < tth ∧ 0 < tti ∧
      m.get_interval_velocity ⟨a, b⟩ = .ok (tth / tti) := by
  obtain ⟨hne, hwfl, hchain⟩ := hwf
  obtain ⟨l, hl, h1, h2⟩ :=
    (velocity_by_altitude_spec m ⟨hne, hwfl, hchain⟩ b).2.2
      (lt_of_le_of_lt hmin hab) hmax
  obtain ⟨p, hp, hp1, hp2⟩ := intervalLoop_pos ⟨a, b⟩ hab m.layers hwfl
    hchain l hl h1 h2 0 0
  refine ⟨p.1, p.2, ?_, hp1, hp2, ?_⟩
  · rw [hp]
  · unfold VelocityModel.get_interval_velocity
    simp only [mk_min_val, mk_max_val]
    rw [if_neg (not_lt.mpr hmin), if_neg (not_lt.mpr hmax)]
    rw [if_neg (by
      simp only [Interval.length, mk_min_val, mk_max_val]
      intro h
      linarith)]
    rw [hp]
    simp only
    rw [if_neg (ne_of_gt hp2)]

/-- C10 witness: the full-span query on the three-layer model reaches the
division with positive totals. -/
theorem interval_loop_time_positive_witness :
    ∃ tth tti, intervalLoop ⟨-90, -60⟩ model3.layers 0 0 = .ok (tth, tti) ∧
      0 < tth ∧ 0 < tti ∧
      model3.get_interval_velocity ⟨-90, -60⟩ = .ok (tth / tti) :=
  interval_loop_time_positive model3 (by decide) (-90) (-60) (by decide)
    (by decide) (by decide)

/-- The running minimum fold of base_altitude is bounded by its seed, by
every element, and is attained by the seed or some element. -/
theorem foldl_min_spec (xs : List Station) (acc : ℚ) :
    (xs.foldl (fun a x => min a x.coordinate.altitude) acc ≤ acc) ∧
    (∀ t ∈ xs, xs.foldl (fun a x => min a x.coordinate.altitude) acc ≤
      t.coordinate.altitude) ∧
    (xs.foldl (fun a x => min a x.coordinate.altitude) acc = acc ∨
      ∃ t ∈ xs, xs.foldl (fun a x => min a x.coordinate.altitude) acc =
        t.coordinate.altitude) := by
  induction xs generalizing acc with
  | nil => simp
  | cons y ys ih =>
    simp only [List.foldl_cons]
    obtain ⟨h1, h2, h3⟩ := ih (min acc y.coordinate.altitude)
    refine ⟨le_trans h1 (min_le_left _ _), ?_, ?_⟩
    · intro t ht
      rcases List.mem_cons.mp ht with h | h
      · rw [h]
        exact le_trans h1 (min_le_right _ _)
      · exact h2 t h
    · rcases h3 with h | ⟨t, ht, hteq⟩
      · rcases le_total acc y.coordinate.altitude with hle | hle
        · left
          rw [h, min_eq_left hle]
        · right
          exact ⟨y, List.mem_cons_self y _, by rw [h, min_eq_right hle]⟩
      · right
        exact ⟨t, List.mem_cons_of_mem y ht, hteq⟩

/-- On a non-empty observation system, base_altitude succeeds with the
minimum of the station altitudes: a value attained by some station and
bounding all of them from below. -/
theorem base_altitude_spec (os : ObservationSystem) (hne : os.stations ≠ []) :
    ∃ b, os.base_altitude = .ok b ∧
      (∃ s ∈ os.stations, b = s.coordinate.altitude) ∧
      ∀ s ∈ os.stations, b ≤ s.coordinate.altitude := by
  match h : os.stations with
  | [] => exact absurd h hne
  | s :: rest =>
    obtain ⟨h1, h2, h3⟩ := foldl_min_spec rest s.coordinate.altitude
    refine ⟨rest.foldl (fun a x => min a x.coordinate.altitude)
      s.coordinate.altitude, ?_, ?_, ?_⟩
    · unfold ObservationSystem.base_altitude
      rw [h]
    · rcases h3 with heq | ⟨t, ht, hteq⟩
      · exact ⟨s, List.mem_cons_self s _, heq⟩
      · exact ⟨t, List.mem_cons_of_mem s ht, hteq⟩
    · intro t ht
      rcases List.mem_cons.mp ht with hc | hc
      · rw [hc]
        exact h1
      · exact h2 t hc

/-- C8: base_altitude equals the minimum station altitude on any non-empty
observation system, and fails with the empty-aggregate error on an empty
one. -/
theorem base_altitude_minimum (os : ObservationSystem) :
    (os.stations = [] →
      os.base_altitude = .error .emptyObservationSystem) ∧
    (os.stations ≠ [] → ∃ b, os.base_altitude = .ok b ∧
      (∃ s ∈ os.stations, b = s.coordinate.altitude) ∧
      ∀ s ∈ os.stations, b ≤ s.coordinate.altitude) := by
  constructor
  · intro h
    unfold ObservationSystem.base_altitude
    rw [h]
  · exact base_altitude_spec os

/-- C8 witness: the two-station system has base altitude -80, attained by
its first station and below both stations. -/
theorem base_altitude_minimum_witness :
    ∃ b, os3.base_altitude = .ok b ∧
      (∃ s ∈ os3.stations, b = s.coordinate.altitude) ∧
      ∀ s ∈ os3.stations, b ≤ s.coordinate.altitude :=
  (base_altitude_minimum os3).2 (by decide)

/-- C9: for every station of a non-empty observation system, the query
interval from the base altitude to that station's altitude is valid, so the
Interval constructor in the correction loop cannot fail. -/
theorem station_interval_valid (os : ObservationSystem)
    (hne : os.stations ≠ []) :
    ∃ b, os.base_altitude = .ok b ∧
      ∀ s ∈ os.stations, Interval.make b s.coordinate.altitude =
        .ok ⟨b, s.coordinate.altitude⟩ := by
  obtain ⟨b, hb, _, hall⟩ := base_altitude_spec os hne
  refine ⟨b, hb, fun s hs => ?_⟩
  unfold Interval.make
  rw [if_neg (not_lt.mpr (hall s hs))]

/-- C9 witness: both query intervals of the two-station system construct
successfully. -/
theorem station_interval_valid_witness :
    ∃ b, os3.base_altitude = .ok b ∧
      ∀ s ∈ os3.stations, Interval.make b s.coordinate.altitude =
        .ok ⟨b, s.coordinate.altitude⟩ :=
  station_interval_valid os3 (by decide)

/-- The station-by-station correction loop succeeds on in-range stations
and produces, in order, the station number paired with the interval length
divided by the interval velocity. -/
theorem mapCorrections_spec (m : VelocityModel) (hwf : m.wellFormed) (b : ℚ)
    (hbmin : m.min_altitude ≤ b) (ss : List Station)
    (hs : ∀ s ∈ ss, b ≤ s.coordinate.altitude ∧
      s.coordinate.altitude ≤ m.max_altitude) :
    ∃ cs, mapCorrections m b ss = .ok cs ∧
      List.Forall₂ (fun s c => c.station_number = s.number ∧
        ∃ v, m.get_interval_velocity ⟨b, s.coordinate.altitude⟩ = .ok v ∧
          0 < v ∧
          c.value = Interval.length ⟨b, s.coordinate.altitude⟩ / v) ss cs := by
  induction ss with
  | nil => exact ⟨[], rfl, List.Forall₂.nil⟩
  | cons s rest ih =>
    obtain ⟨hb, hmax⟩ := hs s (List.mem_cons_self s _)
    obtain ⟨v, hv, hvpos⟩ := interval_velocity_ok m hwf b
      s.coordinate.altitude hb hbmin hmax
    obtain ⟨cs, hcs, hfa⟩ := ih (fun t ht => hs t (List.mem_cons_of_mem s ht))
    refine ⟨⟨s.number, Interval.length ⟨b, s.coordinate.altitude⟩ / v⟩ :: cs,
      ?_, ?_⟩
    · unfold mapCorrections correctionFor Interval.make
      rw [if_neg (not_lt.mpr hb)]
      simp only
      rw [hv]
      simp only
      rw [if_neg (ne_of_gt hvpos), hcs]
    · exact List.Forall₂.cons ⟨rfl, v, hv, hvpos, rfl⟩ hfa

/-- C4: on a non-empty observation system whose stations all lie in a
well-formed model's range, the corrections list succeeds with exactly one
entry per station, in station order; each entry carries the station's
number and the one-way travel time, the query interval's length divided by
its interval velocity. -/
theorem static_corrections_per_station (os : ObservationSystem)
    (m : VelocityModel) (hne : os.stations ≠ []) (hwf : m.wellFormed)
    (hrange : ∀ s ∈ os.stations, m.min_altitude ≤ s.coordinate.altitude ∧
      s.coordinate.altitude ≤ m.max_altitude) :
    ∃ b cs, os.base_altitude = .ok b ∧ staticCorrections os m = .ok cs ∧
      List.Forall₂ (fun s c => c.station_number = s.number ∧
        ∃ v, m.get_interval_velocity ⟨b, s.coordinate.altitude⟩ = .ok v ∧
          c.value = Interval.length ⟨b, s.coordinate.altitude⟩ / v)
        os.stations cs := by
  obtain ⟨b, hb, ⟨sb, hsb, hbeq⟩, hall⟩ := base_altitude_spec os hne
  have hbmin : m.min_altitude ≤ b := by
    rw [hbeq]
    exact (hrange sb hsb).1
  obtain ⟨cs, hcs, hfa⟩ := mapCorrections_spec m hwf b hbmin os.stations
    (fun s hs => ⟨hall s hs, (hrange s hs).2⟩)
  refine ⟨b, cs, hb, ?_, ?_⟩
  · unfold staticCorrections
    rw [hb]
    exact hcs
  · refine List.Forall₂.imp ?_ hfa
    intro s c hc
    obtain ⟨h1, v, hv, _, hval⟩ := hc
    exact ⟨h1, v, hv, hval⟩

/-- C4 witness: on the two-station system and the three-layer model the
corrections compute per station, in order. -/
theorem static_corrections_per_station_witness :
    ∃ b cs, os3.base_altitude = .ok b ∧
      staticCorrections os3 model3 = .ok cs ∧
      List.Forall₂ (fun s c => c.station_number = s.number ∧
        ∃ v, model3.get_interval_velocity ⟨b, s.coordinate.altitude⟩ =
            .ok v ∧
          c.value = Interval.length ⟨b, s.coordinate.altitude⟩ / v)
        os3.stations cs :=
  static_corrections_per_station os3 model3 (by decide) (by decide)
    (by decide)

/-- Membership through insertLayer. -/
theorem mem_insertLayer (l z : Layer) (xs : List Layer) :
    z ∈ insertLayer l xs ↔ z = l ∨ z ∈ xs := by
  induction xs with
  | nil => simp [insertLayer]
  | cons x xs ih =>
    unfold insertLayer
    split_ifs with h
    · simp [List.mem_cons]
    · simp only [List.mem_cons, ih]
      tauto

/-- insertLayer permutes to consing. -/
theorem insertLayer_perm (l : Layer) (xs : List Layer) :
    List.Perm (insertLayer l xs) (l :: xs) := by
  induction xs with
  | nil => exact List.Perm.refl _
  | cons x xs ih =>
    unfold insertLayer
    split_ifs with h
    · exact List.Perm.refl _
    · exact (ih.cons x).trans (List.Perm.swap l x xs)

/-- sortLayers permutes its input. -/
theorem sortLayers_perm (xs : List Layer) :
    List.Perm (sortLayers xs) xs := by
  induction xs with
  | nil => exact List.Perm.refl _
  | cons x xs ih =>
    exact (insertLayer_perm x (sortLayers xs)).trans (ih.cons x)

/-- insertLayer preserves descending order of tops. -/
theorem insertLayer_pairwise (l : Layer) (xs : List Layer)
    (h : List.Pairwise (fun a b => b.top ≤ a.top) xs) :
    List.Pairwise (fun a b => b.top ≤ a.top) (insertLayer l xs) := by
  induction xs with
  | nil => simp [insertLayer]
  | cons x xs ih =>
    unfold insertLayer
    rw [List.pairwise_cons] at h
    split_ifs with hc
    · refine List.Pairwise.cons ?_ (List.Pairwise.cons h.1 h.2)
      intro z hz
      rcases List.mem_cons.mp hz with h1 | h1
      · rw [h1]
        exact hc
      · exact le_trans (h.1 z h1) hc
    · refine List.Pairwise.cons ?_ (ih h.2)
      intro z hz
      rcases (mem_insertLayer l z xs).mp hz with h1 | h1
      · rw [h1]
        exact le_of_not_le hc
      · exact h.1 z h1

/-- sortLayers yields descending order of tops. -/
theorem sortLayers_pairwise (xs : List Layer) :
    List.Pairwise (fun a b => b.top ≤ a.top) (sortLayers xs) := by
  induction xs with
  | nil => exact List.Pairwise.nil
  | cons x xs ih => exact insertLayer_pairwise x _ ih

/-- Every element of a pairwise-ordered list is the last element or relates
to it. -/
theorem pairwise_last (R : Layer → Layer → Prop) (ls : List Layer)
    (lb : Layer) :
    List.Pairwise R ls → ls.getLast? = some lb →
    ∀ l ∈ ls, l = lb ∨ R l lb := by
  induction ls with
  | nil =>
    intro _ hlb
    simp at hlb
  | cons x xs ih =>
    intro h hlb l hl
    rw [List.pairwise_cons] at h
    cases xs with
    | nil =>
      simp only [List.getLast?_singleton, Option.some.injEq] at hlb
      rw [List.mem_singleton] at hl
      left
      rw [hl, ← hlb]
    | cons y ys =>
      rw [List.getLast?_cons_cons] at hlb
      rcases List.mem_cons.mp hl with hc | hc
      · right
        rw [hc]
        exact h.1 lb (mem_of_getLast? hlb)
      · exact ih h.2 hlb l hc

/-- C6 counterexample: with overlapping input layers, the constructed
model's min_altitude (the last sorted layer's bottom, 0) is not the true
minimum bottom (-10), so the unconditional claim fails. -/
theorem model_minmax_cex :
    VelocityModel.make layersOverlap = .ok modelOverlap ∧
    modelOverlap.min_altitude = 0 ∧
    (⟨⟨-10, 5⟩, 1⟩ : Layer) ∈ layersOverlap ∧
    ¬ modelOverlap.min_altitude ≤ (⟨⟨-10, 5⟩, 1⟩ : Layer).bot := by
  refine ⟨by rfl, by rfl, ?_, by decide⟩
  exact List.mem_cons_self _ _

/-- C6 amended: for any non-empty list of pairwise non-overlapping layers
of positive thickness, construction succeeds, the stored layers are sorted
by descending top, and min_altitude / max_altitude are the true minimum
bottom and true maximum top over the input layers.  (Sortedness and the
max_altitude part need no disjointness; the original unconditional
min_altitude part is refuted by the counterexample.) -/
theorem model_make_sorted_minmax (layers : List Layer) (hne : layers ≠ [])
    (hpos : ∀ l ∈ layers, l.bot < l.top)
    (hdisj : List.Pairwise layersDisjoint layers) :
    ∃ mdl, VelocityModel.make layers = .ok mdl ∧
      List.Pairwise (fun x y => y.top ≤ x.top) mdl.layers ∧
      (∃ l ∈ layers, mdl.max_altitude = l.top) ∧
      (∀ l ∈ layers, l.top ≤ mdl.max_altitude) ∧
      (∃ l ∈ layers, mdl.min_altitude = l.bot) ∧
      (∀ l ∈ layers, mdl.min_altitude ≤ l.bot) := by
  have hperm := sortLayers_perm layers
  have hsorted := sortLayers_pairwise layers
  have hsne : sortLayers layers ≠ [] := by
    intro hnil
    apply hne
    have := hperm.length_eq
    rw [hnil] at this
    exact List.eq_nil_of_length_eq_zero this.symm
  refine ⟨⟨sortLayers layers⟩, ?_, hsorted, ?_⟩
  · unfold VelocityModel.make
    rw [if_neg (by rw [List.isEmpty_iff]; exact hne)]
  match hs : sortLayers layers with
  | [] => exact absurd hs hsne
  | x :: xs =>
    rw [hs] at hperm hsorted
    have hmax : VelocityModel.max_altitude ⟨x :: xs⟩ = x.top := rfl
    have hlast : ∃ lb, (x :: xs).getLast? = some lb := by
      cases hgl : (x :: xs).getLast? with
      | none =>
        rw [List.getLast?_eq_none_iff] at hgl
        simp at hgl
      | some lb => exact ⟨lb, rfl⟩
    obtain ⟨lb, hlb⟩ := hlast
    have hmin : VelocityModel.min_altitude ⟨x :: xs⟩ = lb.bot := by
      unfold VelocityModel.min_altitude
      simp only
      rw [hlb]
      rfl
    have hmem : ∀ z, z ∈ x :: xs ↔ z ∈ layers := fun z => hperm.mem_iff
    have hdisj' : List.Pairwise layersDisjoint (x :: xs) :=
      (hperm.pairwise_iff (by intro a b h; exact Or.symm h)).mpr hdisj
    refine ⟨⟨x, (hmem x).mp (List.mem_cons_self x _), hmax⟩, ?_, ?_, ?_⟩
    · intro l hl
      rw [hmax]
      rcases List.mem_cons.mp ((hmem l).mpr hl) with hc | hc
      · rw [hc]
      · exact (List.pairwise_cons.mp hsorted).1 l hc
    · exact ⟨lb, (hmem lb).mp (mem_of_getLast? hlb), hmin⟩
    · intro l hl
      rw [hmin]
      have hcomb := hsorted.and hdisj'
      rcases pairwise_last _ (x :: xs) lb hcomb hlb l ((hmem l).mpr hl)
        with hc | hc
      · rw [hc]
      · have hlbpos : lb.bot < lb.top :=
          hpos lb ((hmem lb).mp (mem_of_getLast? hlb))
        have hlpos : l.bot < l.top := hpos l hl
        obtain ⟨htople, hdd⟩ := hc
        rcases hdd with hd | hd
        · linarith
        · linarith

/-- C6 witness: the three disjoint positive-thickness layers sort
descending with true extrema -60 and -90. -/
theorem model_make_sorted_minmax_witness :
    ∃ mdl, VelocityModel.make layers3 = .ok mdl ∧
      List.Pairwise (fun x y => y.top ≤ x.top) mdl.layers ∧
      (∃ l ∈ layers3, mdl.max_altitude = l.top) ∧
      (∀ l ∈ layers3, l.top ≤ mdl.max_altitude) ∧
      (∃ l ∈ layers3, mdl.min_altitude = l.bot) ∧
      (∀ l ∈ layers3, mdl.min_altitude ≤ l.bot) :=
  model_make_sorted_minmax layers3 (by decide) (by decide) (by decide)

end PerfCore
